import Mathlib

/-!
Verification of the modularity library (modular arithmetic over u64):
a shallow embedding of the residue value type, the Barrett reduction
context, the Montgomery reduction context and the hardware-acceleration
multiply primitive, with theorems settling the specification claims.

Machine integers are embedded as Nat (unsigned) and Int (signed), with
wraparound made explicit at the points where the source relies on
wrapping casts or wrapping operations.
-/

namespace Modularity

/-- Truncation of an unsigned computation to 64 bits: models a u64 cast
or a u64 wrapping operation. -/
def w64 (x : Nat) : Nat := x % 2 ^ 64

/-- Wrapping u64 subtraction, for arguments below 2 to the 64. -/
def wsub64 (a b : Nat) : Nat := (a + 2 ^ 64 - b % 2 ^ 64) % 2 ^ 64

/-- Two-complement interpretation used for i64 stores: wraps an exact
integer into the i64 range. -/
def wrap64s (x : Int) : Int := (x + 2 ^ 63) % 2 ^ 64 - 2 ^ 63

/-- The `value as i64` cast of a u64 value (src/lib.rs inverse_mod). -/
def toI64 (x : Nat) : Int := if x < 2 ^ 63 then (x : Int) else (x : Int) - 2 ^ 64

/-- The `result as u64` cast of an i64 value (src/lib.rs inverse_mod). -/
def castU64 (x : Int) : Nat := (x % 2 ^ 64).toNat

lemma wrap64s_range (x : Int) : -2 ^ 63 ≤ wrap64s x ∧ wrap64s x < 2 ^ 63 := by
  unfold wrap64s
  omega

lemma wrap64s_eq_self {x : Int} (h1 : -2 ^ 63 ≤ x) (h2 : x < 2 ^ 63) :
    wrap64s x = x := by
  unfold wrap64s
  omega

lemma wrap64s_idem (x : Int) : wrap64s (wrap64s x) = wrap64s x :=
  wrap64s_eq_self (wrap64s_range x).1 (wrap64s_range x).2

lemma natAbs_tmod (a b : Int) : (Int.tmod a b).natAbs = a.natAbs % b.natAbs := by
  rcases a with m | m <;> rcases b with n | n <;>
    first
      | rfl
      | (simp only [Int.tmod, Int.natAbs_neg]
         rfl)

lemma tmod_nonpos_of_nonpos {a : Int} (b : Int) (ha : a ≤ 0) : Int.tmod a b ≤ 0 := by
  rcases a with m | m
  · simp only [Int.ofNat_eq_natCast] at ha
    have hm : m = 0 := by omega
    subst hm
    rcases b with n | n <;> simp [Int.tmod]
  · rcases b with n | n <;> simp only [Int.tmod, Int.ofNat_eq_natCast] <;> omega

/-- With in-range i64 operands and a nonzero divisor, one wrapped
remainder step of the extended Euclid loop computes the exact
truncated remainder. -/
lemma eea_step_eq_tmod {u v : Int} (hu1 : -2 ^ 63 ≤ u) (hu2 : u < 2 ^ 63)
    (hv1 : -2 ^ 63 ≤ v) (hv2 : v < 2 ^ 63) (hv : v ≠ 0) :
    wrap64s (u - wrap64s (Int.tdiv u v * v)) = Int.tmod u v := by
  have h := Int.tdiv_add_tmod u v
  rw [mul_comm] at h
  have habs2 : (Int.tmod u v).natAbs ≤ u.natAbs := by
    rw [natAbs_tmod]
    exact Nat.mod_le _ _
  have habs3 : (Int.tmod u v).natAbs < v.natAbs := by
    rw [natAbs_tmod]
    exact Nat.mod_lt _ (Int.natAbs_pos.mpr hv)
  have hin : wrap64s (Int.tdiv u v * v) = Int.tdiv u v * v := by
    rcases le_or_lt 0 u with hc | hc
    · have h1 := Int.tmod_nonneg v hc
      apply wrap64s_eq_self <;> omega
    · have h1 := tmod_nonpos_of_nonpos v (le_of_lt hc)
      apply wrap64s_eq_self <;> omega
  rw [hin]
  have h2 : u - Int.tdiv u v * v = Int.tmod u v := by omega
  rw [h2]
  apply wrap64s_eq_self <;> omega

/-- The residue value type `ModularInt<u64>` (src/lib.rs). -/
structure ModularInt where
  value : Nat
  modulus : Nat
deriving DecidableEq, Repr

namespace ModularInt

/-- `ModularInt::reduce` (src/lib.rs lines 241-245): reduce the value
into range only when it is at least the modulus. -/
def reduceVal (value modulus : Nat) : Nat :=
  if value ≥ modulus then value % modulus else value

/-- `ModularInt::<u64>::new` (src/lib.rs lines 233-238).  The assert
that the modulus is positive is modelled as a precondition of the
theorems; the stored value is the input passed through `reduce`. -/
def new (value modulus : Nat) : ModularInt :=
  ⟨reduceVal value modulus, modulus⟩

/-- `ModularInt::<u64>::add_mod` (src/lib.rs lines 248-257): wrapping
addition, with the overflow branch taken when the raw sum wrapped or
reached the modulus. -/
def add_mod (a b : ModularInt) : ModularInt :=
  let sum := w64 (a.value + b.value)
  if sum ≥ a.modulus ∨ sum < a.value then new (sum % a.modulus) a.modulus
  else new sum a.modulus

/-- `ModularInt::<u64>::sub_mod` (src/lib.rs lines 260-267). -/
def sub_mod (a b : ModularInt) : ModularInt :=
  if a.value ≥ b.value then new (a.value - b.value) a.modulus
  else new (wsub64 a.modulus (b.value - a.value)) a.modulus

/-- `ModularInt::<u64>::mul_mod` (src/lib.rs lines 270-276): the full
double-width product reduced by the modulus, then cast back to u64. -/
def mul_mod (a b : ModularInt) : ModularInt :=
  new (w64 (a.value * b.value % a.modulus)) a.modulus

/-- The square-and-multiply loop of `pow_mod` (src/lib.rs lines
290-296), least-significant bit first. -/
def powLoop (base result : ModularInt) (exp : Nat) : ModularInt :=
  if h : exp > 0 then
    powLoop (base.mul_mod base)
      (if exp % 2 = 1 then result.mul_mod base else result) (exp / 2)
  else result
termination_by exp
decreasing_by
  exact Nat.div_lt_self h (by norm_num)

/-- `ModularInt::<u64>::pow_mod` (src/lib.rs lines 281-299). -/
def pow_mod (a : ModularInt) (exponent : Nat) : ModularInt :=
  if exponent = 0 then new 1 a.modulus
  else powLoop a (new 1 a.modulus) exponent

end ModularInt

/-- The panic raised by `inverse_mod` when no inverse exists. -/
inductive ModError where
  | NotInvertible
deriving DecidableEq, Repr

/-- The extended Euclidean loop of `inverse_mod` (src/lib.rs lines
324-338) over i64 values.  Every store wraps into the i64 range via
`wrap64s`; reading a stored i64 back is the identity on in-range
values, so the extra `wrap64s` on reads leaves the behaviour on real
states unchanged while making termination provable.  Division is the
Rust i64 division, truncation towards zero. -/
def eeaLoop (old_r r old_s s old_t t : Int) : Int × Int :=
  let u := wrap64s old_r
  let v := wrap64s r
  if h : v = 0 then (u, old_s)
  else
    let q := Int.tdiv u v
    eeaLoop v (wrap64s (u - wrap64s (q * v)))
      s (wrap64s (old_s - wrap64s (q * s)))
      t (wrap64s (old_t - wrap64s (q * t)))
termination_by (wrap64s r).natAbs
decreasing_by
  rw [wrap64s_idem,
    eea_step_eq_tmod (wrap64s_range old_r).1 (wrap64s_range old_r).2
      (wrap64s_range r).1 (wrap64s_range r).2 h,
    natAbs_tmod]
  exact Nat.mod_lt _ (Int.natAbs_pos.mpr h)

/-- `ModularInt::<u64>::inverse_mod` (src/lib.rs lines 308-353).  The
three panics (zero value, nontrivial gcd, final remainder not one) are
modelled as the NotInvertible error. -/
def ModularInt.inverse_mod (a : ModularInt) : Except ModError ModularInt :=
  if a.value = 0 then .error .NotInvertible
  else if Nat.gcd a.value a.modulus ≠ 1 then .error .NotInvertible
  else
    let p := eeaLoop (toI64 a.value) (toI64 a.modulus) 1 0 0 1
    if p.1 ≠ 1 then .error .NotInvertible
    else
      let result : Int := if p.2 < 0 then p.2 + toI64 a.modulus else p.2
      .ok (ModularInt.new (castU64 result) a.modulus)

/-- `BarrettContext<u64>` (src/barrett.rs lines 14-17). -/
structure BarrettContext where
  modulus : Nat
  mu : Nat
deriving DecidableEq, Repr

namespace BarrettContext

/-- `BarrettContext::<u64>::new` (src/barrett.rs lines 51-66): the
positive-modulus assert is a precondition; `mu` is the saturated
128-bit reciprocal, cast (hence truncated) to u64. -/
def new (modulus : Nat) : BarrettContext :=
  ⟨modulus, if modulus = 1 then 0 else w64 ((2 ^ 128 - 1) / modulus + 1)⟩

/-- `BarrettContext::<u64>::reduce_u64` (src/barrett.rs lines 72-96).
The comparison against twice the modulus uses the wrapping u64
product, and the remainder estimate uses wrapping subtraction and
multiplication, exactly as in the source. -/
def reduce_u64 (ctx : BarrettContext) (value : Nat) : Nat :=
  if value < ctx.modulus then value
  else if value < w64 (ctx.modulus * 2) then value - ctx.modulus
  else
    let q := w64 (value * ctx.mu / 2 ^ 64)
    let r := wsub64 value (w64 (q * ctx.modulus))
    if r ≥ ctx.modulus then r - ctx.modulus else r

/-- `BarrettContext::<u64>::mul_mod_u64` (src/barrett.rs lines 99-134).
The unused low word of the quotient estimate (q_lo_part2 in the
source) is dead code and is not modelled. -/
def mul_mod_u64 (ctx : BarrettContext) (a b : Nat) : Nat :=
  let product := a * b
  if product < ctx.modulus then w64 product
  else
    let product_hi := product / 2 ^ 64
    let product_lo := product % 2 ^ 64
    let q_hi := w64 (product_hi * ctx.mu / 2 ^ 64)
    let q_lo_part1 := w64 (product_lo * ctx.mu / 2 ^ 64)
    let qm := w64 (w64 (q_hi * ctx.modulus) + w64 (q_lo_part1 * ctx.modulus))
    let r := wsub64 product_lo qm
    if r ≥ ctx.modulus then wsub64 r ctx.modulus else r

end BarrettContext

/-- `BarrettReduction::barrett_reduce` for `ModularInt<u64>`
(src/barrett.rs lines 139-142); the modulus-equality assert is a
precondition. -/
def ModularInt.barrett_reduce (a : ModularInt) (ctx : BarrettContext) : ModularInt :=
  ModularInt.new (ctx.reduce_u64 a.value) a.modulus

/-- `BarrettReduction::barrett_mul` for `ModularInt<u64>`
(src/barrett.rs lines 144-148). -/
def ModularInt.barrett_mul (a b : ModularInt) (ctx : BarrettContext) : ModularInt :=
  ModularInt.new (ctx.mul_mod_u64 a.value b.value) a.modulus

/-- The two panics of `MontgomeryContext::<u64>::new`. -/
inductive MontError where
  | EvenModulus
  | ZeroModulus
deriving DecidableEq, Repr

/-- `MontgomeryContext<u64>` (src/montgomery.rs lines 14-19). -/
structure MontgomeryContext where
  modulus : Nat
  r_squared : Nat
  r_inverse : Nat
  n_prime : Nat
deriving DecidableEq, Repr

namespace MontgomeryContext

/-- The 128-step doubling loop of `compute_r_squared`
(src/montgomery.rs lines 84-88), on a u128 accumulator. -/
def rsquaredLoop (modulus : Nat) : Nat → Nat → Nat
  | 0, result => result
  | k + 1, result => rsquaredLoop modulus k (result <<< 1 % modulus)

/-- `MontgomeryContext::compute_r_squared` (src/montgomery.rs lines
80-89): the final u128 value cast to u64. -/
def compute_r_squared (modulus : Nat) : Nat :=
  w64 (rsquaredLoop modulus 128 1)

/-- The extended-Euclid loop of `compute_n_prime` (src/montgomery.rs
lines 102-113) on u64 state, with wrapping subtraction and
multiplication on the coefficient chain. -/
def nprimeLoop (t newT r newR : Nat) : Nat :=
  if h : newR = 0 then t
  else
    nprimeLoop newT (wsub64 t (w64 (r / newR * newT))) newR (r - r / newR * newR)
termination_by newR
decreasing_by
  have hmod : r - r / newR * newR = r % newR := by
    rw [Nat.mod_def, Nat.mul_comm]
  rw [hmod]
  exact Nat.mod_lt _ (Nat.pos_of_ne_zero h)

/-- `MontgomeryContext::compute_n_prime` (src/montgomery.rs lines
92-116): the loop starts from t = 0, new_t = 1, r = 0, new_r =
modulus, and the final t is negated with wrapping. -/
def compute_n_prime (modulus : Nat) : Nat :=
  wsub64 0 (nprimeLoop 0 1 0 modulus)

/-- `MontgomeryContext::<u64>::new` (src/montgomery.rs lines 53-77):
the oddness assert fires before the positivity assert. -/
def new (modulus : Nat) : Except MontError MontgomeryContext :=
  if modulus % 2 ≠ 1 then .error .EvenModulus
  else if ¬ modulus > 0 then .error .ZeroModulus
  else .ok ⟨modulus, compute_r_squared modulus, 1, compute_n_prime modulus⟩

/-- `MontgomeryContext::montgomery_reduction` (src/montgomery.rs lines
121-134) on a u128 input; the u128 addition wraps at 2 to the 128 and
the branch results are cast to u64. -/
def montgomery_reduction (ctx : MontgomeryContext) (t : Nat) : Nat :=
  let m := w64 (w64 t * ctx.n_prime)
  let t2 := (t + m * ctx.modulus) % 2 ^ 128 / 2 ^ 64
  if t2 ≥ ctx.modulus then w64 (t2 - ctx.modulus) else w64 t2

end MontgomeryContext

/-- `MontgomeryArithmetic::to_montgomery` for `ModularInt<u64>`
(src/montgomery.rs lines 139-144). -/
def ModularInt.to_montgomery (a : ModularInt) (ctx : MontgomeryContext) : ModularInt :=
  ModularInt.new (ctx.montgomery_reduction (a.value * ctx.r_squared)) a.modulus

/-- `MontgomeryArithmetic::from_montgomery` for `ModularInt<u64>`
(src/montgomery.rs lines 146-151). -/
def ModularInt.from_montgomery (a : ModularInt) (ctx : MontgomeryContext) : ModularInt :=
  ModularInt.new (ctx.montgomery_reduction a.value) a.modulus

/-- `MontgomeryArithmetic::montgomery_mul` for `ModularInt<u64>`
(src/montgomery.rs lines 153-164). -/
def ModularInt.montgomery_mul (a b : ModularInt) (ctx : MontgomeryContext) : ModularInt :=
  ModularInt.new (ctx.montgomery_reduction (a.value * b.value)) a.modulus

/-- The accelerated x86_64 path of `arithmetic::mul_add_carry`
(src/intrinsics.rs lines 46-63): mulx gives the double-width product,
addcarryx adds c into the low half with carry out, then adds the carry
operand and the carry-in into the high half, discarding the final
carry out. -/
def mul_add_carry_accel (a b c carry : Nat) : Nat × Nat :=
  let lo := w64 (a * b)
  let hi := a * b / 2 ^ 64
  let cin := (lo + c) / 2 ^ 64
  let lo2 := w64 (lo + c)
  let hi2 := w64 (hi + carry + cin)
  (hi2, lo2)

/-- The portable fallback path of `arithmetic::mul_add_carry`
(src/intrinsics.rs lines 64-69): the u128 value a * b + c + carry
split into high and low u64 halves. -/
def mul_add_carry_fallback (a b c carry : Nat) : Nat × Nat :=
  let result := a * b + c + carry
  (result / 2 ^ 64, w64 result)

/-! Helper lemmas about the embedded operations. -/

/-- The n_prime loop always exits after a single iteration, because
its remainder state starts from r = 0: the first quotient is zero and
the new new_r is 0 - 0 * new_r = 0. -/
lemma nprimeLoop_eval (m : Nat) (hm : m ≠ 0) :
    MontgomeryContext.nprimeLoop 0 1 0 m = 1 := by
  rw [MontgomeryContext.nprimeLoop]
  rw [dif_neg hm]
  rw [MontgomeryContext.nprimeLoop]
  simp

/-- For every positive modulus the computed REDC constant is the
wrapping negation of 1, that is 2 ^ 64 - 1. -/
lemma compute_n_prime_eq {m : Nat} (hm : m ≠ 0) :
    MontgomeryContext.compute_n_prime m = 2 ^ 64 - 1 := by
  unfold MontgomeryContext.compute_n_prime
  rw [nprimeLoop_eval m hm]
  decide

/-- The constructor always returns a value inside the range when the
modulus is positive. -/
lemma new_value_lt {m : Nat} (v : Nat) (hm : 0 < m) :
    (ModularInt.new v m).value < m := by
  unfold ModularInt.new ModularInt.reduceVal
  dsimp only
  split
  · exact Nat.mod_lt _ hm
  · omega

lemma new_modulus (v m : Nat) : (ModularInt.new v m).modulus = m := rfl

lemma powLoop_modulus :
    ∀ (exp : Nat) (base result : ModularInt),
      (ModularInt.powLoop base result exp).modulus = result.modulus := by
  intro exp
  induction exp using Nat.strong_induction_on with
  | _ exp ih =>
    intro base result
    rw [ModularInt.powLoop]
    split
    · rename_i h
      rw [ih (exp / 2) (Nat.div_lt_self h (by norm_num))]
      split <;> rfl
    · rfl

lemma powLoop_value_lt :
    ∀ (exp : Nat) (base result : ModularInt),
      0 < result.modulus → result.value < result.modulus →
      (ModularInt.powLoop base result exp).value < result.modulus := by
  intro exp
  induction exp using Nat.strong_induction_on with
  | _ exp ih =>
    intro base result hm hv
    rw [ModularInt.powLoop]
    split
    · rename_i h
      have hmod : (if exp % 2 = 1 then result.mul_mod base else result).modulus
          = result.modulus := by
        split <;> rfl
      have hval : (if exp % 2 = 1 then result.mul_mod base else result).value
          < result.modulus := by
        split
        · exact new_value_lt _ hm
        · exact hv
      have := ih (exp / 2) (Nat.div_lt_self h (by norm_num))
        (base.mul_mod base) (if exp % 2 = 1 then result.mul_mod base else result)
        (hmod ▸ hm) (hmod ▸ hval)
      rwa [hmod] at this
    · exact hv

lemma pow_mod_value_lt (a : ModularInt) (e : Nat) (hm : 0 < a.modulus) :
    (a.pow_mod e).value < a.modulus := by
  unfold ModularInt.pow_mod
  split
  · exact new_value_lt _ hm
  · exact powLoop_value_lt e a (ModularInt.new 1 a.modulus) hm (new_value_lt _ hm)

lemma pow_mod_modulus (a : ModularInt) (e : Nat) :
    (a.pow_mod e).modulus = a.modulus := by
  unfold ModularInt.pow_mod
  split
  · rfl
  · rw [powLoop_modulus]
    rfl

/-- On the success path, inverse_mod returns a residue built by the
constructor with the modulus of its argument. -/
lemma inverse_mod_ok_shape {a inv : ModularInt}
    (h : a.inverse_mod = Except.ok inv) :
    ∃ v, inv = ModularInt.new v a.modulus := by
  simp only [ModularInt.inverse_mod] at h
  split at h
  · cases h
  · split at h
    · cases h
    · split at h
      · cases h
      · cases h
        exact ⟨_, rfl⟩

/-- The Montgomery context the source constructs for modulus 17:
r_squared is 2 ^ 128 mod 17 = 1, and n_prime is the (incorrect)
constant 2 ^ 64 - 1 produced by compute_n_prime. -/
def mctx17 : MontgomeryContext := ⟨17, 1, 1, 2 ^ 64 - 1⟩

set_option maxRecDepth 4000 in
lemma mctx17_new : MontgomeryContext.new 17 = Except.ok mctx17 := by
  have h1 : MontgomeryContext.compute_n_prime 17 = 2 ^ 64 - 1 :=
    compute_n_prime_eq (by norm_num)
  have h2 : MontgomeryContext.compute_r_squared 17 = 1 := by decide
  simp [MontgomeryContext.new, h1, h2, mctx17]

/-! Claim theorems. -/

/-- Claim C1: for odd modulus m and a, b below m, converting with
to_montgomery, multiplying with montgomery_mul and converting back is
claimed to equal mul_mod.  The code violates this (and its own test,
which asserts the value 1): at m = 17, a = 5, b = 7 the round trip
yields 16 while mul_mod yields 1, because compute_n_prime returns the
wrong constant. -/
theorem c1_montgomery_roundtrip_bug :
    MontgomeryContext.new 17 = Except.ok mctx17 ∧
    ((((ModularInt.new 5 17).to_montgomery mctx17).montgomery_mul
        ((ModularInt.new 7 17).to_montgomery mctx17) mctx17).from_montgomery
        mctx17).value = 16 ∧
    ((ModularInt.new 5 17).mul_mod (ModularInt.new 7 17)).value = 1 :=
  ⟨mctx17_new, by decide, by decide⟩

/-- Claim C2: add_mod is claimed to return the true modular sum even
when the raw u64 addition wraps.  The code violates this: for modulus
2 ^ 63 + 1 and both operands 2 ^ 63, the wrapped sum 0 is reduced
directly instead of being corrected for the lost 2 ^ 64, producing 0
instead of 2 ^ 63 - 1. -/
theorem c2_add_mod_overflow_bug :
    ((ModularInt.new (2 ^ 63) (2 ^ 63 + 1)).add_mod
        (ModularInt.new (2 ^ 63) (2 ^ 63 + 1))).value = 0 ∧
    (2 ^ 63 + 2 ^ 63) % (2 ^ 63 + 1) = 2 ^ 63 - 1 ∧
    (0 : Nat) ≠ 2 ^ 63 - 1 :=
  ⟨by decide, by decide, by decide⟩

/-- Claim C3: the Barrett product path is claimed to equal the
double-width product-and-reduce reference.  The code violates this
(and its own large-modulus test): at the test inputs with modulus
2 ^ 64 - 5 it returns 2727022148017675751 while the reference value is
3002129119992722821. -/
theorem c3_barrett_mul_bug :
    (BarrettContext.new (2 ^ 64 - 5)).mul_mod_u64 0xABCDEF0123456789
      0x123456789ABCDEF = 2727022148017675751 ∧
    0xABCDEF0123456789 * 0x123456789ABCDEF % (2 ^ 64 - 5)
      = 3002129119992722821 ∧
    ((ModularInt.new 0xABCDEF0123456789 (2 ^ 64 - 5)).barrett_mul
        (ModularInt.new 0x123456789ABCDEF (2 ^ 64 - 5))
        (BarrettContext.new (2 ^ 64 - 5))).value = 2727022148017675751 ∧
    (2727022148017675751 : Nat) ≠ 3002129119992722821 :=
  ⟨by decide, by decide, by decide, by decide⟩

/-- Claim C4: reduce_u64 is claimed to return value mod modulus for
every modulus and value.  The code violates this (and its own doc
comment): for modulus 7 and value 14 the truncated reciprocal makes
the quotient estimate wrong and the result is 2 ^ 64 - 21 instead
of 0. -/
theorem c4_barrett_reduce_bug :
    (BarrettContext.new 7).reduce_u64 14 = 2 ^ 64 - 21 ∧
    14 % 7 = 0 ∧ (2 ^ 64 - 21 : Nat) ≠ 0 :=
  ⟨by decide, by decide, by decide⟩

/-- Claim C5: n_prime is claimed to satisfy
modulus * n_prime = -1 modulo 2 ^ 64 for every odd modulus above 1.
The code violates this (and its own doc comment): the loop always
returns the wrapping negation of 1, so for modulus 17 the product is
2 ^ 64 - 17 rather than 2 ^ 64 - 1. -/
theorem c5_n_prime_bug :
    MontgomeryContext.compute_n_prime 17 = 2 ^ 64 - 1 ∧
    17 * MontgomeryContext.compute_n_prime 17 % 2 ^ 64 = 2 ^ 64 - 17 ∧
    (2 ^ 64 - 17 : Nat) ≠ 2 ^ 64 - 1 := by
  have h1 := compute_n_prime_eq (m := 17) (by norm_num)
  refine ⟨h1, ?_, by norm_num⟩
  rw [h1]
  decide

/-- Claim C7: the accelerated mul_add_carry path is claimed to be
bit-identical to the portable fallback on every input.  The code
violates this (and its own doc comment): the accelerated path adds the
carry operand into the high half instead of the low half, so at
a = b = c = 0, carry = 1 it returns (1, 0) while the fallback returns
(0, 1). -/
theorem c7_mul_add_carry_divergence :
    mul_add_carry_accel 0 0 0 1 = (1, 0) ∧
    mul_add_carry_fallback 0 0 0 1 = (0, 1) ∧
    ((1, 0) : Nat × Nat) ≠ (0, 1) :=
  ⟨by decide, by decide, by decide⟩

/-- Claim C9, counterexample: the claim says a zero modulus fails with
ZeroModulus, but the oddness assert fires first, so the zero modulus
is rejected as EvenModulus. -/
theorem c9_zero_modulus_counterexample :
    MontgomeryContext.new 0 = Except.error MontError.EvenModulus ∧
    MontError.EvenModulus ≠ MontError.ZeroModulus :=
  ⟨rfl, by decide⟩

/-- Claim C9, amended: MontgomeryContext.new fails with EvenModulus
for every even modulus, including zero, and succeeds for every odd
modulus. -/
theorem c9_new_error_amended (m : Nat) :
    (m % 2 = 0 → MontgomeryContext.new m = Except.error MontError.EvenModulus) ∧
    (m % 2 = 1 → ∃ ctx, MontgomeryContext.new m = Except.ok ctx ∧
      ctx.modulus = m) := by
  constructor
  · intro h
    unfold MontgomeryContext.new
    rw [if_pos (by omega)]
  · intro h
    refine ⟨⟨m, MontgomeryContext.compute_r_squared m, 1,
      MontgomeryContext.compute_n_prime m⟩, ?_, rfl⟩
    unfold MontgomeryContext.new
    rw [if_neg (by omega), if_neg (by omega)]

/-- Witness for the amended C9 at the even modulus 4 and the odd
modulus 7. -/
theorem c9_new_error_amended_witness :
    (4 % 2 = 0 ∧ MontgomeryContext.new 4 = Except.error MontError.EvenModulus) ∧
    (7 % 2 = 1 ∧ ∃ ctx, MontgomeryContext.new 7 = Except.ok ctx ∧
      ctx.modulus = 7) :=
  ⟨⟨by decide, (c9_new_error_amended 4).1 (by decide)⟩,
   ⟨by decide, (c9_new_error_amended 7).2 (by decide)⟩⟩

/-- Claim C8: every public operation that produces a ModularInt keeps
the value inside the range from 0 to the modulus, under the operation
preconditions (positive modulus, reduced operands, matching moduli).
This holds because every operation builds its result through the
constructor, which reduces. -/
theorem c8_range_invariant (v e : Nat) (a b : ModularInt)
    (bc : BarrettContext) (mc : MontgomeryContext) (m : Nat)
    (hm : 0 < m) (ha : 0 < a.modulus)
    (hav : a.value < a.modulus) (hbv : b.value < b.modulus)
    (hab : a.modulus = b.modulus) (hbc : bc.modulus = a.modulus)
    (hmc : mc.modulus = a.modulus) :
    (ModularInt.new v m).value < m ∧
    (a.add_mod b).value < a.modulus ∧
    (a.sub_mod b).value < a.modulus ∧
    (a.mul_mod b).value < a.modulus ∧
    (a.pow_mod e).value < a.modulus ∧
    (∀ inv, a.inverse_mod = Except.ok inv → inv.value < a.modulus) ∧
    (a.barrett_reduce bc).value < a.modulus ∧
    (a.barrett_mul b bc).value < a.modulus ∧
    (a.to_montgomery mc).value < a.modulus ∧
    (a.from_montgomery mc).value < a.modulus ∧
    (a.montgomery_mul b mc).value < a.modulus := by
  refine ⟨new_value_lt v hm, ?_, ?_, new_value_lt _ ha, pow_mod_value_lt a e ha,
    ?_, new_value_lt _ ha, new_value_lt _ ha, new_value_lt _ ha,
    new_value_lt _ ha, new_value_lt _ ha⟩
  · unfold ModularInt.add_mod
    dsimp only
    split <;> exact new_value_lt _ ha
  · unfold ModularInt.sub_mod
    split <;> exact new_value_lt _ ha
  · intro inv hinv
    obtain ⟨w, hw⟩ := inverse_mod_ok_shape hinv
    rw [hw]
    exact new_value_lt _ ha

/-- Witness for C8 at modulus 17 with the fixture operands 5 and 7. -/
theorem c8_range_invariant_witness :
    (0 : Nat) < 17 ∧
    (ModularInt.new 20 17).value < 17 ∧
    ((ModularInt.mk 5 17).add_mod (ModularInt.mk 7 17)).value < 17 ∧
    ((ModularInt.mk 5 17).sub_mod (ModularInt.mk 7 17)).value < 17 ∧
    ((ModularInt.mk 5 17).mul_mod (ModularInt.mk 7 17)).value < 17 ∧
    ((ModularInt.mk 5 17).pow_mod 8).value < 17 ∧
    (∀ inv, (ModularInt.mk 5 17).inverse_mod = Except.ok inv →
      inv.value < 17) ∧
    ((ModularInt.mk 5 17).barrett_reduce (BarrettContext.mk 17 0)).value < 17 ∧
    ((ModularInt.mk 5 17).barrett_mul (ModularInt.mk 7 17)
      (BarrettContext.mk 17 0)).value < 17 ∧
    ((ModularInt.mk 5 17).to_montgomery mctx17).value < 17 ∧
    ((ModularInt.mk 5 17).from_montgomery mctx17).value < 17 ∧
    ((ModularInt.mk 5 17).montgomery_mul (ModularInt.mk 7 17)
      mctx17).value < 17 := by
  have h := c8_range_invariant 20 8 (ModularInt.mk 5 17) (ModularInt.mk 7 17)
    (BarrettContext.mk 17 0) mctx17 17 (by decide) (by decide) (by decide)
    (by decide) (by decide) (by decide) (by decide)
  exact ⟨by decide, h.1, h.2.1, h.2.2.1, h.2.2.2.1, h.2.2.2.2.1,
    h.2.2.2.2.2.1, h.2.2.2.2.2.2.1, h.2.2.2.2.2.2.2.1,
    h.2.2.2.2.2.2.2.2.1, h.2.2.2.2.2.2.2.2.2.1, h.2.2.2.2.2.2.2.2.2.2⟩

/-- Claim C10: every arithmetic operation returns a residue carrying
the modulus of its inputs: the modulus field is passed through the
constructor unchanged. -/
theorem c10_modulus_preserved (e : Nat) (a b : ModularInt)
    (bc : BarrettContext) (mc : MontgomeryContext)
    (hab : a.modulus = b.modulus) (hbc : bc.modulus = a.modulus)
    (hmc : mc.modulus = a.modulus) :
    (a.add_mod b).modulus = a.modulus ∧
    (a.sub_mod b).modulus = a.modulus ∧
    (a.mul_mod b).modulus = a.modulus ∧
    (a.pow_mod e).modulus = a.modulus ∧
    (∀ inv, a.inverse_mod = Except.ok inv → inv.modulus = a.modulus) ∧
    (a.barrett_mul b bc).modulus = a.modulus ∧
    (a.to_montgomery mc).modulus = a.modulus ∧
    (a.from_montgomery mc).modulus = a.modulus ∧
    (a.montgomery_mul b mc).modulus = a.modulus := by
  refine ⟨?_, ?_, rfl, pow_mod_modulus a e, ?_, rfl, rfl, rfl, rfl⟩
  · unfold ModularInt.add_mod
    dsimp only
    split <;> rfl
  · unfold ModularInt.sub_mod
    split <;> rfl
  · intro inv hinv
    obtain ⟨w, hw⟩ := inverse_mod_ok_shape hinv
    rw [hw]
    rfl

/-- Witness for C10 at modulus 17 with the fixture operands 5 and 7. -/
theorem c10_modulus_preserved_witness :
    ((ModularInt.mk 5 17).add_mod (ModularInt.mk 7 17)).modulus = 17 ∧
    ((ModularInt.mk 5 17).sub_mod (ModularInt.mk 7 17)).modulus = 17 ∧
    ((ModularInt.mk 5 17).mul_mod (ModularInt.mk 7 17)).modulus = 17 ∧
    ((ModularInt.mk 5 17).pow_mod 8).modulus = 17 ∧
    (∀ inv, (ModularInt.mk 5 17).inverse_mod = Except.ok inv →
      inv.modulus = 17) ∧
    ((ModularInt.mk 5 17).barrett_mul (ModularInt.mk 7 17)
      (BarrettContext.mk 17 0)).modulus = 17 ∧
    ((ModularInt.mk 5 17).to_montgomery mctx17).modulus = 17 ∧
    ((ModularInt.mk 5 17).from_montgomery mctx17).modulus = 17 ∧
    ((ModularInt.mk 5 17).montgomery_mul (ModularInt.mk 7 17)
      mctx17).modulus = 17 :=
  c10_modulus_preserved 8 (ModularInt.mk 5 17) (ModularInt.mk 7 17)
    (BarrettContext.mk 17 0) mctx17 (by decide) (by decide) (by decide)

lemma wrap64s_sub_wrap (a b : Int) : wrap64s (a - wrap64s b) = wrap64s (a - b) := by
  unfold wrap64s
  omega

lemma reduceVal_eq_mod {m : Nat} (v : Nat) (hm : 0 < m) :
    ModularInt.reduceVal v m = v % m := by
  unfold ModularInt.reduceVal
  split
  · rfl
  · rename_i h
    exact (Nat.mod_eq_of_lt (by omega)).symm

lemma gcd_tmod_step {a b : Int} (ha : 0 ≤ a) (hb : 0 < b) :
    Int.gcd a b = Int.gcd b (Int.tmod a b) := by
  unfold Int.gcd
  rw [natAbs_tmod, Nat.gcd_comm a.natAbs b.natAbs, Nat.gcd_rec, Nat.gcd_comm]

/-- Correctness of the extended Euclidean loop of inverse_mod on
in-range states: starting from a state satisfying the standard
invariants for the pair (A, M) with M below 2 ^ 63, the loop returns
the gcd of its remainder pair together with a Bezout coefficient of
magnitude at most M. -/
lemma eeaLoop_spec (A M : Int) (hA : 0 < A) (hAM : A < M) (hM : M < 2 ^ 63) :
    ∀ n (old_r r old_s s old_t t : Int),
      r.natAbs ≤ n →
      0 < old_r → old_r ≤ M → 0 ≤ r → r ≤ M →
      A * old_s + M * old_t = old_r →
      A * s + M * t = r →
      old_s * s ≤ 0 → old_t * t ≤ 0 →
      old_r * |s| + r * |old_s| = M →
      old_r * |t| + r * |old_t| = A →
      |old_s| ≤ M → |old_t| ≤ A →
      ∃ g sOut tOut,
        eeaLoop old_r r old_s s old_t t = (g, sOut) ∧
        A * sOut + M * tOut = g ∧
        g.natAbs = Int.gcd old_r r ∧ 0 < g ∧
        |sOut| ≤ M := by
  intro n
  induction n using Nat.strong_induction_on with
  | _ n ih =>
    intro old_r r old_s s old_t t hn h1 h2 h3 h4 hl1 hl2 hs1 ht1 hiv1 hiv2 hb1 hb2
    have hor : wrap64s old_r = old_r := wrap64s_eq_self (by omega) (by omega)
    have hr : wrap64s r = r := wrap64s_eq_self (by omega) (by omega)
    rw [eeaLoop]
    simp only [hor, hr]
    by_cases hr0 : r = 0
    · rw [dif_pos hr0]
      subst hr0
      refine ⟨old_r, old_s, old_t, rfl, hl1, ?_, h1, hb1⟩
      unfold Int.gcd
      simp
    · rw [dif_neg hr0]
      have hrpos : 0 < r := by omega
      have hq0 : 0 ≤ Int.tdiv old_r r := Int.tdiv_nonneg (by omega) (by omega)
      have hdecomp := Int.tdiv_add_tmod old_r r
      have hr2emod : Int.tmod old_r r = old_r % r :=
        Int.tmod_eq_emod (by omega) (by omega)
      have hr2nn : 0 ≤ Int.tmod old_r r := by
        rw [hr2emod]
        exact Int.emod_nonneg _ (by omega)
      have hr2lt : Int.tmod old_r r < r := by
        rw [hr2emod]
        exact Int.emod_lt_of_pos _ hrpos
      have hstep : wrap64s (old_r - wrap64s (Int.tdiv old_r r * r))
          = Int.tmod old_r r :=
        eea_step_eq_tmod (by omega) (by omega) (by omega) (by omega) hr0
      have hsb : |s| ≤ M := by
        have e1 : 0 ≤ r * |old_s| := mul_nonneg (by omega) (abs_nonneg _)
        have e2 : |s| ≤ old_r * |s| := le_mul_of_one_le_left (abs_nonneg _) (by omega)
        linarith
      have htb : |t| ≤ A := by
        have e1 : 0 ≤ r * |old_t| := mul_nonneg (by omega) (abs_nonneg _)
        have e2 : |t| ≤ old_r * |t| := le_mul_of_one_le_left (abs_nonneg _) (by omega)
        linarith
      have habs_s : |old_s - Int.tdiv old_r r * s| = |old_s| + Int.tdiv old_r r * |s| := by
        rcases mul_nonpos_iff.mp hs1 with ⟨h01, h02⟩ | ⟨h01, h02⟩
        · have hqs : Int.tdiv old_r r * s ≤ 0 :=
            mul_nonpos_of_nonneg_of_nonpos hq0 h02
          have hnn : 0 ≤ old_s - Int.tdiv old_r r * s := by omega
          rw [abs_of_nonneg h01, abs_of_nonpos h02, abs_of_nonneg hnn]
          ring
        · have hqs : 0 ≤ Int.tdiv old_r r * s := mul_nonneg hq0 h02
          have hnp : old_s - Int.tdiv old_r r * s ≤ 0 := by omega
          rw [abs_of_nonpos h01, abs_of_nonneg h02, abs_of_nonpos hnp]
          ring
      have habs_t : |old_t - Int.tdiv old_r r * t| = |old_t| + Int.tdiv old_r r * |t| := by
        rcases mul_nonpos_iff.mp ht1 with ⟨h01, h02⟩ | ⟨h01, h02⟩
        · have hqt : Int.tdiv old_r r * t ≤ 0 :=
            mul_nonpos_of_nonneg_of_nonpos hq0 h02
          have hnn : 0 ≤ old_t - Int.tdiv old_r r * t := by omega
          rw [abs_of_nonneg h01, abs_of_nonpos h02, abs_of_nonneg hnn]
          ring
        · have hqt : 0 ≤ Int.tdiv old_r r * t := mul_nonneg hq0 h02
          have hnp : old_t - Int.tdiv old_r r * t ≤ 0 := by omega
          rw [abs_of_nonpos h01, abs_of_nonneg h02, abs_of_nonpos hnp]
          ring
      have hiv1n : r * |old_s - Int.tdiv old_r r * s| + Int.tmod old_r r * |s| = M := by
        rw [habs_s]
        linear_combination hiv1 + |s| * hdecomp
      have hiv2n : r * |old_t - Int.tdiv old_r r * t| + Int.tmod old_r r * |t| = A := by
        rw [habs_t]
        linear_combination hiv2 + |t| * hdecomp
      have hs2b : |old_s - Int.tdiv old_r r * s| ≤ M := by
        have e1 : 0 ≤ Int.tmod old_r r * |s| := mul_nonneg hr2nn (abs_nonneg _)
        have e2 : |old_s - Int.tdiv old_r r * s| ≤ r * |old_s - Int.tdiv old_r r * s| :=
          le_mul_of_one_le_left (abs_nonneg _) (by omega)
        linarith
      have ht2b : |old_t - Int.tdiv old_r r * t| ≤ A := by
        have e1 : 0 ≤ Int.tmod old_r r * |t| := mul_nonneg hr2nn (abs_nonneg _)
        have e2 : |old_t - Int.tdiv old_r r * t| ≤ r * |old_t - Int.tdiv old_r r * t| :=
          le_mul_of_one_le_left (abs_nonneg _) (by omega)
        linarith
      have hw_s : wrap64s (old_s - wrap64s (Int.tdiv old_r r * s))
          = old_s - Int.tdiv old_r r * s := by
        rw [wrap64s_sub_wrap]
        have := abs_le.mp hs2b
        exact wrap64s_eq_self (by omega) (by omega)
      have hw_t : wrap64s (old_t - wrap64s (Int.tdiv old_r r * t))
          = old_t - Int.tdiv old_r r * t := by
        rw [wrap64s_sub_wrap]
        have := abs_le.mp ht2b
        exact wrap64s_eq_self (by omega) (by omega)
      rw [hstep, hw_s, hw_t]
      have hrec := ih (Int.tmod old_r r).natAbs (by omega) r (Int.tmod old_r r)
        s (old_s - Int.tdiv old_r r * s) t (old_t - Int.tdiv old_r r * t)
        (le_refl _) hrpos h4 hr2nn (by omega)
        hl2
        (by linear_combination hl1 - Int.tdiv old_r r * hl2 - hdecomp)
        (by
          have e3 : 0 ≤ Int.tdiv old_r r * s ^ 2 := mul_nonneg hq0 (sq_nonneg s)
          have e4 : s * (old_s - Int.tdiv old_r r * s)
              = old_s * s - Int.tdiv old_r r * s ^ 2 := by ring
          linarith)
        (by
          have e3 : 0 ≤ Int.tdiv old_r r * t ^ 2 := mul_nonneg hq0 (sq_nonneg t)
          have e4 : t * (old_t - Int.tdiv old_r r * t)
              = old_t * t - Int.tdiv old_r r * t ^ 2 := by ring
          linarith)
        hiv1n hiv2n hsb htb
      obtain ⟨g, sOut, tOut, heq, hlin, hgcd, hgpos, hob⟩ := hrec
      refine ⟨g, sOut, tOut, heq, hlin, ?_, hgpos, hob⟩
      rw [hgcd, gcd_tmod_step (a := old_r) (by omega) hrpos]

set_option maxHeartbeats 1000000 in
lemma eeaLoop_cex_eval :
    eeaLoop 2 (-9223372036854775807) 1 0 0 1 = (-1, 4611686018427387903) := by
  have d1 : Int.tdiv 2 (-9223372036854775807) = 0 := by decide
  have d2 : Int.tdiv (-9223372036854775807) 2 = -4611686018427387903 := by decide
  have d3 : Int.tdiv 2 (-1) = -2 := by decide
  rw [eeaLoop]
  norm_num [wrap64s, d1]
  rw [eeaLoop]
  norm_num [wrap64s, d2]
  rw [eeaLoop]
  norm_num [wrap64s, d3]
  rw [eeaLoop]
  norm_num [wrap64s]

/-- Claim C6, counterexample: the claim says inverse_mod fails exactly
when the value is zero or shares a factor with the modulus, over the
full u64 range.  For the modulus 2 ^ 63 + 1 the i64 cast wraps to a
negative number, the Euclidean loop ends with remainder -1, and the
call fails even though gcd(2, 2 ^ 63 + 1) = 1. -/
theorem c6_inverse_counterexample :
    Nat.gcd 2 (2 ^ 63 + 1) = 1 ∧ (2 : Nat) ≠ 0 ∧
    (ModularInt.mk 2 (2 ^ 63 + 1)).inverse_mod
      = Except.error ModError.NotInvertible := by
  refine ⟨by decide, by decide, ?_⟩
  have ht1 : toI64 2 = 2 := by norm_num [toI64]
  have ht2 : toI64 (2 ^ 63 + 1) = -9223372036854775807 := by norm_num [toI64]
  simp only [ModularInt.inverse_mod, ht1, ht2, eeaLoop_cex_eval]
  norm_num

/-- Claim C6, amended: inverse_mod fails with NotInvertible whenever
the value is zero or shares a nontrivial factor with the modulus (the
guards fire before any cast, for every modulus); restricted to moduli
below 2 ^ 63, where the i64 casts are value preserving, it succeeds on
every nonzero value coprime to the modulus and returns the modular
inverse, normalized into the range. -/
theorem c6_inverse_mod_amended (a m : Nat) :
    (a = 0 ∨ Nat.gcd a m ≠ 1 →
      (ModularInt.mk a m).inverse_mod = Except.error ModError.NotInvertible) ∧
    (0 < a → a < m → m < 2 ^ 63 → Nat.gcd a m = 1 →
      ∃ inv, (ModularInt.mk a m).inverse_mod = Except.ok inv ∧
        a * inv.value % m = 1 ∧ inv.value < m ∧ inv.modulus = m) := by
  constructor
  · intro hfail
    simp only [ModularInt.inverse_mod]
    rcases hfail with h0 | hgne
    · rw [if_pos h0]
    · by_cases h0 : a = 0
      · rw [if_pos h0]
      · rw [if_neg h0, if_pos hgne]
  · intro ha ham hm hg
    have hm2 : 2 ≤ m := by omega
    have hA : (0 : Int) < a := by exact_mod_cast ha
    have hAM : (a : Int) < m := by exact_mod_cast ham
    have hMr : (m : Int) < 2 ^ 63 := by exact_mod_cast hm
    obtain ⟨g, sOut, tOut, heq, hlin, hgcd, hgpos, hsb⟩ :=
      eeaLoop_spec a m hA hAM hMr (m : Int).natAbs (a : Int) (m : Int) 1 0 0 1
        (le_refl _) hA (le_of_lt hAM) (by positivity) (le_refl _)
        (by ring) (by ring) (by norm_num) (by norm_num)
        (by simp) (by simp)
        (by simp
            omega)
        (by simp)
    have hg1 : g = 1 := by
      have h2 : g.natAbs = 1 := by
        rw [hgcd]
        unfold Int.gcd
        simpa using hg
      omega
    rw [hg1] at heq hlin
    have hta : toI64 a = (a : Int) := by
      unfold toI64
      rw [if_pos (by omega)]
    have htm : toI64 m = (m : Int) := by
      unfold toI64
      rw [if_pos (by omega)]
    have habs := abs_le.mp hsb
    set R : Int := if sOut < 0 then sOut + (m : Int) else sOut with hR
    have hR0 : 0 ≤ R := by
      rw [hR]
      split <;> omega
    have hRle : R ≤ (m : Int) := by
      rw [hR]
      split <;> omega
    have hcast : castU64 R = R.toNat := by
      unfold castU64
      rw [Int.emod_eq_of_lt hR0 (by omega)]
    have h1m : (1 : Int) % m = 1 := Int.emod_eq_of_lt (by norm_num) (by omega)
    have hRint : (a : Int) * R % m = 1 := by
      rw [hR]
      split
      · have hx : (a : Int) * (sOut + m) = 1 + (m : Int) * (a - tOut) := by
          linear_combination hlin
        rw [hx, Int.add_mul_emod_self_left, h1m]
      · have hx : (a : Int) * sOut = 1 + (m : Int) * (-tOut) := by
          linear_combination hlin
        rw [hx, Int.add_mul_emod_self_left, h1m]
    have hvalnat : a * R.toNat % m = 1 := by
      have hcast2 : ((a * R.toNat % m : Nat) : Int) = (a : Int) * R % m := by
        push_cast [Int.toNat_of_nonneg hR0]
        ring_nf
      rw [hRint] at hcast2
      exact_mod_cast hcast2
    have hval : (ModularInt.new (castU64 R) m).value = R.toNat % m := by
      rw [hcast]
      exact reduceVal_eq_mod _ (by omega)
    refine ⟨ModularInt.new (castU64 R) m, ?_, ?_, ?_, rfl⟩
    · simp only [ModularInt.inverse_mod, hta, htm, heq]
      rw [if_neg (show ¬ a = 0 by omega)]
      rw [if_neg (by simp [hg])]
      rw [if_neg (by norm_num)]
    · rw [hval]
      have hmm := Nat.ModEq.mul_left a (Nat.mod_modEq R.toNat m)
      unfold Nat.ModEq at hmm
      rw [hmm, hvalnat]
    · rw [hval]
      exact Nat.mod_lt _ (by omega)


/-- Witness for the amended C6: the zero value 0 mod 17 and the
non-coprime value 6 mod 9 fail with NotInvertible, and the fixture
input 3 mod 17 succeeds with its inverse. -/
theorem c6_inverse_mod_amended_witness :
    ((0 : Nat) = 0 ∨ Nat.gcd 0 17 ≠ 1) ∧
    (ModularInt.mk 0 17).inverse_mod = Except.error ModError.NotInvertible ∧
    ((6 : Nat) = 0 ∨ Nat.gcd 6 9 ≠ 1) ∧
    (ModularInt.mk 6 9).inverse_mod = Except.error ModError.NotInvertible ∧
    (0 < 3 ∧ 3 < 17 ∧ 17 < 2 ^ 63 ∧ Nat.gcd 3 17 = 1) ∧
    ∃ inv, (ModularInt.mk 3 17).inverse_mod = Except.ok inv ∧
      3 * inv.value % 17 = 1 ∧ inv.value < 17 ∧ inv.modulus = 17 :=
  ⟨Or.inl rfl,
   (c6_inverse_mod_amended 0 17).1 (Or.inl rfl),
   Or.inr (by decide),
   (c6_inverse_mod_amended 6 9).1 (Or.inr (by decide)),
   ⟨by decide, by decide, by decide, by decide⟩,
   (c6_inverse_mod_amended 3 17).2 (by decide) (by decide) (by decide) (by decide)⟩

end Modularity
